import Mathlib

/-!
Verification development for the contexter-web WASM core
(`src/wasm/src/lib.rs`): path utilities, text-file heuristic,
gitignore-style filtering, tree building, aggregation and ordering.

All paths handled by the module are slash-normalized relative paths
(the WASM build targets a unix-style path model, where
`path_slash::PathExt::to_slash_lossy` is the identity on UTF-8 path
strings), so path operations are modelled directly on `/`-separated
strings.  All string contents in scope are ASCII, so Rust
`str::to_lowercase` is modelled by ASCII lower-casing (`lowerStr`).
-/

namespace Contexter

/-- Splits a character list at every occurrence of `sep`, modelling
Rust `str::split`.  `splitOnChar sep []` is `[[]]`, matching
`"".split(sep)` yielding one empty piece. -/
def splitOnChar (sep : Char) : List Char → List (List Char)
  | [] => [[]]
  | c :: cs =>
    if c = sep then [] :: splitOnChar sep cs
    else
      match splitOnChar sep cs with
      | [] => [[c]]
      | h :: t => (c :: h) :: t

/-- The `/`-separated components of a path, as character lists. -/
def pathComps (p : String) : List (List Char) :=
  splitOnChar '/' p.toList

/-- Joins components back into a `/`-separated path string. -/
def joinComps : List (List Char) → String
  | [] => ""
  | [c] => String.mk c
  | c :: rest => String.mk c ++ "/" ++ joinComps rest

/-- Models Rust `Path::file_name().map(to_string_lossy)` for
slash-normalized relative paths: the last `/`-component, or `none`
when the path is empty or ends in `.` or `..`. -/
def rustFileName (p : String) : Option String :=
  match (pathComps p).getLast? with
  | some c =>
    if c = [] ∨ c = ['.'] ∨ c = ['.', '.'] then none else some (String.mk c)
  | none => none

/-- Models `extract_file_name` in `lib.rs`: the file name of the path,
or `"Unknown"` when there is none. -/
def extractFileName (p : String) : String :=
  (rustFileName p).getD ("Unknown")

/-- Models `normalize_path` in `lib.rs`.  On the non-Windows WASM
target, `path_slash::PathExt::to_slash_lossy` returns the path's own
string unchanged, so normalization is the identity on UTF-8 paths. -/
def normalizePath (p : String) : String := p

/-- Models Rust `Path::parent()` followed by `normalize_path` for
slash-normalized relative paths: `none` for the empty path, otherwise
the path with its last component removed (`""` for a single
component). -/
def rustParent (p : String) : Option String :=
  if p = "" then none
  else some (joinComps (pathComps p).dropLast)

/-- The characters after the last `.` of the list, if any. -/
def afterLastDot : List Char → Option (List Char)
  | [] => none
  | c :: cs =>
    match afterLastDot cs with
    | some r => some r
    | none => if c = '.' then some cs else none

/-- Models Rust `Path::extension` restricted to a file name:
`none` when the name has no dot past its first character, otherwise
the portion after the final dot. -/
def rustExtOfName (f : String) : Option String :=
  match f.toList with
  | [] => none
  | _ :: rest => (afterLastDot rest).map String.mk

/-- Models `Path::new(path).extension()` for the paths in scope. -/
def rustExtensionOfPath (p : String) : Option String :=
  (rustFileName p).bind rustExtOfName

/-! ## Text-file detection (`TextFileDetector` in `lib.rs`) -/

/-- The fixed text-extension allow-list of `TextFileDetector::new`. -/
def textExtensions : List String :=
  ["js", "ts", "tsx", "jsx", "json", "md", "mdx", "html", "css", "scss", "sass", "less",
   "py", "pyi", "rs", "go", "java", "c", "cpp", "cc", "cxx", "h", "hpp", "hxx",
   "hs", "lhs", "rb", "php", "sh", "bash", "zsh", "fish", "ps1", "bat", "cmd",
   "txt", "rtf", "yml", "yaml", "xml", "toml", "ini", "conf", "config",
   "dockerfile", "makefile", "cmake", "gradle", "properties", "env",
   "gitignore", "gitattributes", "editorconfig", "eslintrc", "prettierrc",
   "sql", "graphql", "gql", "proto", "thrift", "vue", "svelte", "astro",
   "elm", "ex", "exs", "erl", "hrl", "ml", "mli", "fs", "fsi", "fsx",
   "kt", "kts", "scala", "sc", "clj", "cljs", "cljc", "edn",
   "r", "rmd", "rnw", "stata", "sas", "spss", "matlab", "m",
   "tex", "bib", "cls", "sty", "dtx", "ins"]

/-- The fixed binary-extension deny-list of `TextFileDetector::new`. -/
def binaryExtensions : List String :=
  ["exe", "dll", "so", "dylib", "bin", "obj", "o", "a", "lib",
   "jpg", "jpeg", "png", "gif", "bmp", "tiff", "svg", "ico", "webp",
   "mp3", "wav", "ogg", "flac", "aac", "m4a", "wma",
   "mp4", "avi", "mkv", "mov", "wmv", "flv", "webm",
   "pdf", "doc", "docx", "xls", "xlsx", "ppt", "pptx",
   "zip", "rar", "7z", "tar", "gz", "bz2", "xz",
   "wasm", "class", "jar", "war", "ear"]

/-- The special extensionless file names matched (lower-cased) by
`is_likely_text`. -/
def specialTextNames : List String :=
  ["license", "readme", "changelog", "makefile", "dockerfile",
   "gemfile", "rakefile", "procfile", "cmakelists.txt"]

/-- ASCII lower-casing of one character, modelling Rust
`to_lowercase` on the ASCII strings in scope. -/
def asciiLower (c : Char) : Char :=
  if 65 ≤ c.toNat ∧ c.toNat ≤ 90 then Char.ofNat (c.toNat + 32) else c

/-- ASCII lower-casing of a string. -/
def lowerStr (s : String) : String :=
  String.mk (s.toList.map asciiLower)

/-- The file-name fallback of `is_likely_text`: special names are text;
otherwise only dotfiles not ending in `.lock` are text. -/
def likelyTextByName (path : String) : Bool :=
  match rustFileName path with
  | some fname =>
    if specialTextNames.contains (lowerStr fname) then true
    else
      ['.'].isPrefixOf (lowerStr fname).toList &&
        !((".lock").toList.isSuffixOf (lowerStr fname).toList)
  | none => false

/-- Models `TextFileDetector::is_likely_text`: a known binary extension
is rejected, a known text extension accepted; any other case falls
through to the file-name check. -/
def isLikelyText (path : String) : Bool :=
  match rustExtensionOfPath path with
  | some ext =>
    if binaryExtensions.contains (lowerStr ext) then false
    else if textExtensions.contains (lowerStr ext) then true
    else likelyTextByName path
  | none => likelyTextByName path

/-! ## Gitignore matching (`GitignoreProcessor` in `lib.rs`)

`GitignoreProcessor` delegates to the `ignore` crate's
`GitignoreBuilder::add_line` and `Gitignore::matched(path, false)`.
The definitions below model that crate's behaviour for the pattern
forms occurring here: literal characters, `*` (which does not cross a
`/` because the crate builds globs with `literal_separator`), a whole
`**` component spanning any number of components, `!` negation, `/`
anchoring and trailing-`/` directory-only patterns.  Escape sequences
and character classes are not modelled (no pattern in scope uses
them). -/

/-- One token of a single path-component pattern. -/
inductive GlobTok where
  | star : GlobTok
  | lit : Char → GlobTok
deriving DecidableEq

/-- One component of a compiled glob: either a literal `**` component
(matching any number of path components) or a token pattern for a
single component. -/
inductive CompPat where
  | anyDirs : CompPat
  | comp : List GlobTok → CompPat
deriving DecidableEq

/-- A compiled gitignore glob, mirroring the crate's `Glob` record:
whitelist flag (`!`), directory-only flag (trailing `/`), and the
glob proper, split into `/`-components. -/
structure GlobPat where
  isWhitelist : Bool
  isOnlyDir : Bool
  comps : List CompPat
deriving DecidableEq

/-- `anyDrop f l` holds when `f` holds of some suffix of `l`
(including `l` itself and `[]`) — the search a wildcard performs. -/
def anyDrop {α : Type} (f : List α → Bool) : List α → Bool
  | [] => f []
  | x :: xs => f (x :: xs) || anyDrop f xs

/-- Matches a single-component token pattern against one component;
`*` matches any run of characters within the component. -/
def matchToks : List GlobTok → List Char → Bool
  | [], cs => cs.isEmpty
  | GlobTok.lit c :: ts, cs =>
    match cs with
    | [] => false
    | c2 :: cs2 => c = c2 && matchToks ts cs2
  | GlobTok.star :: ts, cs => anyDrop (matchToks ts) cs

/-- Matches a component-pattern list against a component list; a `**`
component absorbs any number of path components. -/
def matchComps : List CompPat → List (List Char) → Bool
  | [], cs => cs.isEmpty
  | CompPat.comp t :: ps, cs =>
    match cs with
    | [] => false
    | c :: cs2 => matchToks t c && matchComps ps cs2
  | CompPat.anyDirs :: ps, cs => anyDrop (matchComps ps) cs

/-- Trailing-whitespace trim, modelling Rust `str::trim_end` on the
ASCII pattern lines in scope. -/
def trimEndWs (cs : List Char) : List Char :=
  (cs.reverse.dropWhile (fun c => c = ' ' ∨ c = '\t')).reverse

/-- Tokenizes one `/`-component of a glob: the whole component `**`
spans directories; otherwise `*` is a within-component wildcard and
every other character is literal. -/
def tokenizeComp (c : List Char) : CompPat :=
  if c = ['*', '*'] then CompPat.anyDirs
  else CompPat.comp (c.map fun ch => if ch = '*' then GlobTok.star else GlobTok.lit ch)

/-- Models `GitignoreBuilder::add_line` of the `ignore` crate for one
pattern line: skip comments and blank lines, strip `!` (whitelist)
and a leading `/` (anchor), strip a trailing `/` (directory-only),
prepend `**/` to slash-free unanchored patterns, and append `/*` to
globs ending in `/**`. -/
def compileLine (line : String) : Option GlobPat :=
  let cs0 := line.toList
  if cs0.head? = some '#' then none else
  let cs1 := if (['\\', ' ']).isSuffixOf cs0 then cs0 else trimEndWs cs0
  if cs1 = [] then none else
  let isW := cs1.head? = some '!'
  let cs2 := if cs1.head? = some '!' then cs1.tail else cs1
  let isAbs := cs2.head? = some '/'
  let cs3 := if cs2.head? = some '/' then cs2.tail else cs2
  let isDir := cs3.getLast? = some '/'
  let cs4 := if cs3.getLast? = some '/' then cs3.dropLast else cs3
  let actual1 :=
    if ¬ isAbs ∧ ¬ cs4.contains '/' ∧ ¬ (['*', '*', '/']).isPrefixOf cs4
    then ['*', '*', '/'] ++ cs4 else cs4
  let actual2 :=
    if (['/', '*', '*']).isSuffixOf actual1 then actual1 ++ ['/', '*'] else actual1
  some { isWhitelist := decide isW
         isOnlyDir := isDir
         comps := (splitOnChar '/' actual2).map tokenizeComp }

/-- Models Rust `str::lines`: split at `\n`, drop one final empty
piece (a trailing line terminator yields no extra line), and strip a
trailing `\r` from each line. -/
def rustLines (s : String) : List String :=
  let parts := splitOnChar '\n' s.toList
  let parts := if parts.getLast? = some [] then parts.dropLast else parts
  parts.map fun l =>
    String.mk (if l.getLast? = some '\r' then l.dropLast else l)

/-- The globs compiled from the caller-supplied gitignore text, in
line order (invalid lines are skipped by the code; every line in
scope compiles). -/
def compileUserLines (content : String) : List GlobPat :=
  (rustLines content).filterMap compileLine

/-- The six patterns `GitignoreProcessor::new` always appends after
the caller-supplied lines. -/
def hardcodedLines : List String :=
  ["node_modules/", ".git/", "target/", "dist/", "build/", "*.log"]

/-- The full compiled matcher of `GitignoreProcessor::new`: caller
lines first, then the hardcoded patterns. -/
def buildGlobs (content : String) : List GlobPat :=
  compileUserLines content ++ hardcodedLines.filterMap compileLine

/-- Models `Gitignore::matched_stripped`: scan the globs from last
added to first; the first glob whose pattern matches the path and
whose directory-only flag is compatible with `isDir` decides; a
whitelist glob means not ignored. -/
def gitMatchIgnore (globs : List GlobPat) (comps : List (List Char)) (isDir : Bool) : Bool :=
  match globs.reverse.find? (fun g => matchComps g.comps comps && (!g.isOnlyDir || isDir)) with
  | some g => !g.isWhitelist
  | none => false

/-- Models `GitignoreProcessor::should_ignore`: the crate's
`matched(Path::new(relative_path), false)` — the flat path only, with
`is_dir = false`, no ancestor-directory lookups. -/
def shouldIgnore (globs : List GlobPat) (relPath : String) : Bool :=
  gitMatchIgnore globs (splitOnChar '/' relPath.toList) false

/-! ## Metadata filtering (`filter_files` in `lib.rs`) -/

/-- Mirrors the Rust `FileMetadata` record (the unused
`last_modified` field is omitted); `size` is the `u32` byte size. -/
structure FileMetadata where
  path : String
  size : Nat
deriving DecidableEq

/-- Mirrors the Rust `FilterOptions` record. -/
structure FilterOptions where
  text_only : Bool
  max_file_size : Option Nat
  include_patterns : List String
  exclude_patterns : List String

/-- `FilterOptions::default()`: text-only, 2 MiB cap, no patterns. -/
def defaultFilterOptions : FilterOptions :=
  { text_only := true
    max_file_size := some (2 * 1024 * 1024)
    include_patterns := []
    exclude_patterns := [] }

/-- The relative path used for gitignore evaluation: the byte slice
after `root_prefix` with leading slashes trimmed, when the path
starts with the (non-empty) prefix; otherwise the path itself. -/
def relativeOf (rootPref : String) (p : String) : String :=
  if rootPref ≠ "" ∧ rootPref.toList.isPrefixOf p.toList then
    String.mk ((p.toList.drop rootPref.toList.length).dropWhile (fun c => c = '/'))
  else p

/-- Substring containment, modelling Rust `str::contains` with a
literal pattern: `pat` is a prefix of some suffix of `l`. -/
def isInfixList (pat l : List Char) : Bool :=
  anyDrop (fun suff => pat.isPrefixOf suff) l

/-- The per-entry predicate of `filter_files`, in the code's check
order: gitignore, size cap (default 2 MiB), text heuristic, include
substrings, exclude substrings. -/
def filterPred (globs : List GlobPat) (rootPref : String) (opts : FilterOptions)
    (meta : FileMetadata) : Bool :=
  if shouldIgnore globs (relativeOf rootPref meta.path) then false
  else if opts.max_file_size.getD (2 * 1024 * 1024) < meta.size then false
  else if opts.text_only && !(isLikelyText meta.path) then false
  else if !opts.include_patterns.isEmpty &&
      !(opts.include_patterns.any fun pat => isInfixList pat.toList meta.path.toList) then false
  else if opts.exclude_patterns.any (fun pat => isInfixList pat.toList meta.path.toList) then false
  else true

/-- The metadata entries `filter_files` retains, in input order. -/
def filteredMetas (gitignoreContent rootPref : String) (opts : FilterOptions)
    (metas : List FileMetadata) : List FileMetadata :=
  metas.filter (filterPred (buildGlobs gitignoreContent) rootPref opts)

/-- Models `filter_files`: the paths of the retained entries. -/
def filterFiles (gitignoreContent rootPref : String) (opts : FilterOptions)
    (metas : List FileMetadata) : List String :=
  (filteredMetas gitignoreContent rootPref opts metas).map FileMetadata.path

/-! ## Tree building and aggregation (`process_files` in `lib.rs`) -/

/-- Mirrors the Rust `FileInput` record. -/
structure FileInput where
  path : String
  content : String

/-- Mirrors the Rust `ProcessingOptions` record. -/
structure ProcessingOptions where
  text_only : Bool
  hide_empty_folders : Bool
  show_token_count : Bool

/-- `ProcessingOptions::default()`. -/
def defaultProcessingOptions : ProcessingOptions :=
  { text_only := true, hide_empty_folders := true, show_token_count := true }

/-- Mirrors the Rust `FileNode` record.  `token_count` and `size` are
optional exactly as in the source (`Option<u32>` / `Option<u64>`);
`last_modified` is kept for shape (always `none` in this module). -/
inductive FileNode where
  | mk : (path : String) → (name : String) → (is_dir : Bool) →
      (token_count : Option Nat) → (children : List FileNode) →
      (size : Option Nat) → (last_modified : Option Nat) → FileNode

def FileNode.path : FileNode → String
  | FileNode.mk p _ _ _ _ _ _ => p

def FileNode.name : FileNode → String
  | FileNode.mk _ n _ _ _ _ _ => n

def FileNode.is_dir : FileNode → Bool
  | FileNode.mk _ _ d _ _ _ _ => d

def FileNode.token_count : FileNode → Option Nat
  | FileNode.mk _ _ _ tok _ _ _ => tok

def FileNode.children : FileNode → List FileNode
  | FileNode.mk _ _ _ _ ch _ _ => ch

def FileNode.size : FileNode → Option Nat
  | FileNode.mk _ _ _ _ _ sz _ => sz

/-- Mirrors the Rust `ProcessingResult` record.  The wall-clock
`processing_time_ms` field is external to the algorithm and is
omitted. -/
structure ProcessingResult where
  file_tree : List FileNode
  total_tokens : Nat
  total_files : Nat
  total_size : Nat

/-- Rust `char::is_control`: the Unicode `Cc` category. -/
def rustIsControl (c : Char) : Bool :=
  c.toNat < 32 || (127 ≤ c.toNat && c.toNat ≤ 159)

/-- Rust `char::is_whitespace`: the Unicode `White_Space` property. -/
def rustIsWhitespace (c : Char) : Bool :=
  (9 ≤ c.toNat && c.toNat ≤ 13) || c.toNat = 32 || c.toNat = 133 || c.toNat = 160 ||
    c.toNat = 5760 || (8192 ≤ c.toNat && c.toNat ≤ 8202) || c.toNat = 8232 ||
    c.toNat = 8233 || c.toNat = 8239 || c.toNat = 8287 || c.toNat = 12288

/-- The non-printable characters counted by the binary-content check:
control characters that are not whitespace. -/
def nonPrintableCount (s : String) : Nat :=
  (s.toList.filter fun c => rustIsControl c && !(rustIsWhitespace c)).length

/-- The content filter at the top of `process_files`: with `text_only`
a file is dropped when its content holds a NUL byte, or when more
than 10% of its characters are non-whitespace control characters.
The Rust code compares `f32` ratios; this is modelled by the exact
rational comparison `10 * count > total`, which agrees except at
inputs where `f32` rounding crosses the threshold. -/
def contentKeep (textOnly : Bool) (f : FileInput) : Bool :=
  if textOnly then
    if f.content.toList.any (fun c => c.toNat = 0) then false
    else if 0 < f.content.toList.length ∧
        f.content.toList.length < 10 * nonPrintableCount f.content then false
    else true
  else true

/-- The UTF-8 byte length of one scalar value. -/
def charUtf8Len (c : Char) : Nat :=
  if c.toNat < 128 then 1
  else if c.toNat < 2048 then 2
  else if c.toNat < 65536 then 3
  else 4

/-- Models Rust `str::len`: the UTF-8 byte length. -/
def byteLen (s : String) : Nat :=
  (s.toList.map charUtf8Len).sum

/-- The scratch path→node map of `process_files`, as an association
list.  Only operations the code performs are modelled: key lookup,
insert-or-replace, insert-if-absent, removal, and child push; the
code never iterates the map itself (its `keys()` snapshot is the
`keyOrd` parameter of `processFiles`). -/
def containsKey (m : List (String × FileNode)) (k : String) : Bool :=
  m.any fun kv => kv.1 == k

/-- `HashMap::insert`: replace the value under an existing key, else
add the binding. -/
def insertReplace (m : List (String × FileNode)) (k : String) (v : FileNode) :
    List (String × FileNode) :=
  if containsKey m k then m.map (fun kv => if kv.1 == k then (k, v) else kv)
  else m ++ [(k, v)]

/-- `HashMap::entry(k).or_insert_with(v)`: add the binding only when
the key is absent. -/
def entryOrInsert (m : List (String × FileNode)) (k : String) (v : FileNode) :
    List (String × FileNode) :=
  if containsKey m k then m else m ++ [(k, v)]

/-- `HashMap::remove`: the removed value (if any) and the remaining
map. -/
def removeKey : List (String × FileNode) → String → Option FileNode × List (String × FileNode)
  | [], _ => (none, [])
  | kv :: rest, k =>
    if kv.1 == k then (some kv.2, rest)
    else ((removeKey rest k).1, kv :: (removeKey rest k).2)

/-- Appends one child to a node's child list (the body of
`parent_node.children.push(child_node)`). -/
def appendChild : FileNode → FileNode → FileNode
  | FileNode.mk p n d tok ch sz lm, c => FileNode.mk p n d tok (ch ++ [c]) sz lm

/-- `get_mut` plus `children.push`: push `child` onto the node stored
under `k`, if present. -/
def pushChild (m : List (String × FileNode)) (k : String) (child : FileNode) :
    List (String × FileNode) :=
  m.map fun kv => if kv.1 == k then (kv.1, appendChild kv.2 child) else kv

/-- A freshly synthesized ancestor-directory node. -/
def dirNode (ps : String) : FileNode :=
  FileNode.mk ps (extractFileName ps) true none [] none none

/-- The ancestor-insertion loop of `process_files`: walk up the parent
chain (`Path::parent`, i.e. dropping the last component), inserting a
directory node for every non-empty, non-`.` ancestor.  The first
argument is fuel bounding the walk by the component count, making the
recursion structural; one component is consumed per step, so the fuel
never runs out. -/
def insertAncestorsAux :
    List (List Char) → List (String × FileNode) → List (List Char) → List (String × FileNode)
  | [], m, _ => m
  | _ :: fuel, m, comps =>
    match comps.dropLast with
    | [] => m
    | ps@(_ :: _) =>
      if joinComps ps = "." then m
      else insertAncestorsAux fuel (entryOrInsert m (joinComps ps) (dirNode (joinComps ps))) ps

/-- Inserts every missing ancestor directory of the path with the
given components. -/
def insertAncestors (m : List (String × FileNode)) (comps : List (List Char)) :
    List (String × FileNode) :=
  insertAncestorsAux comps m comps

/-- The per-file loop of `process_files`: for each (content-filtered)
file, compute byte size and (when enabled) the token count — a
tokenizer failure aborts the whole call via `?` — insert the leaf
node, then synthesize its ancestors.  Returns the finished map and
the accumulated `total_size`. -/
def buildLoop (tok : String → Except String Nat) (showTok : Bool) :
    List FileInput → List (String × FileNode) → Nat →
      Except String (List (String × FileNode) × Nat)
  | [], m, sz => Except.ok (m, sz)
  | f :: fs, m, sz =>
    match (if showTok then (tok f.content).map some else Except.ok none) with
    | Except.error e => Except.error e
    | Except.ok tokc =>
      buildLoop tok showTok fs
        (insertAncestors
          (insertReplace m (normalizePath f.path)
            (FileNode.mk (normalizePath f.path) (extractFileName f.path) false tokc []
              (some (byteLen f.content)) none))
          (pathComps (normalizePath f.path)))
        (sz + byteLen f.content)

/-- The tree-assembly loop of `process_files`: for each key of the
snapshot (in the map's unspecified iteration order), a node whose
parent path is empty or `.` is removed and pushed onto the root list;
any other node is removed and pushed onto its parent's child list —
silently vanishing when the parent is no longer in the map. -/
def reparent :
    List String → List (String × FileNode) → List FileNode →
      List (String × FileNode) × List FileNode
  | [], m, roots => (m, roots)
  | p :: rest, m, roots =>
    match rustParent p with
    | none => reparent rest m roots
    | some ps =>
      if ps = "" ∨ ps = "." then
        match removeKey m p with
        | (some node, m2) => reparent rest m2 (roots ++ [node])
        | (none, m2) => reparent rest m2 roots
      else
        match removeKey m p with
        | (some child, m2) => reparent rest (pushChild m2 ps child) roots
        | (none, m2) => reparent rest m2 roots

mutual
/-- Models `post_process_node` and its surrounding `retain_mut`: a
file returns its token count (`unwrap_or(0)`); a directory processes
each child, accumulates every child's tokens and (present) size —
including children pruned right afterwards — retains a child unless
pruning is on and it is a childless directory, then overwrites its
own `token_count` and `size` with the accumulated sums. -/
def postProcessNode (opts : ProcessingOptions) : FileNode → FileNode × Nat
  | FileNode.mk p n true _ ch _ lm =>
    (FileNode.mk p n true (some (postProcessChildren opts ch).2.1)
      (postProcessChildren opts ch).1 (some (postProcessChildren opts ch).2.2) lm,
     (postProcessChildren opts ch).2.1)
  | FileNode.mk p n false tok ch sz lm =>
    (FileNode.mk p n false tok ch sz lm, tok.getD 0)

/-- The child half of `post_process_node`'s `retain_mut` loop: the
retained children, the token sum and the size sum over all
children. -/
def postProcessChildren (opts : ProcessingOptions) :
    List FileNode → List FileNode × Nat × Nat
  | [] => ([], 0, 0)
  | c :: cs =>
    ((if !opts.hide_empty_folders || !(postProcessNode opts c).1.is_dir
        || !(postProcessNode opts c).1.children.isEmpty
      then (postProcessNode opts c).1 :: (postProcessChildren opts cs).1
      else (postProcessChildren opts cs).1),
     (postProcessNode opts c).2 + (postProcessChildren opts cs).2.1,
     (postProcessNode opts c).1.size.getD 0 + (postProcessChildren opts cs).2.2)
end

/-- The fold `root_nodes.iter_mut().map(post_process_node).sum()`:
every root is post-processed and the returned token counts are
summed. -/
def postProcessRoots (opts : ProcessingOptions) : List FileNode → List FileNode × Nat
  | [] => ([], 0)
  | r :: rs =>
    ((postProcessNode opts r).1 :: (postProcessRoots opts rs).1,
     (postProcessNode opts r).2 + (postProcessRoots opts rs).2)

/-- Lexicographic comparison of two scalar-value lists; for the UTF-8
strings in scope this coincides with Rust's byte-wise `String`
ordering (UTF-8 preserves scalar order). -/
def compareChList : List Char → List Char → Ordering
  | [], [] => Ordering.eq
  | [], _ :: _ => Ordering.lt
  | _ :: _, [] => Ordering.gt
  | a :: l1, b :: l2 =>
    if a.toNat < b.toNat then Ordering.lt
    else if b.toNat < a.toNat then Ordering.gt
    else compareChList l1 l2

/-- The comparator of `sort_nodes_recursive`: directories first, then
lower-cased names ascending. -/
def nodeCmp (a b : FileNode) : Ordering :=
  match a.is_dir, b.is_dir with
  | true, false => Ordering.lt
  | false, true => Ordering.gt
  | _, _ => compareChList (lowerStr a.name).toList (lowerStr b.name).toList

/-- Stable insertion of `a` into an already-sorted list: `a` passes
over every strictly smaller element and lands before the first
element not smaller than it. -/
def ordInsNode (a : FileNode) : List FileNode → List FileNode
  | [] => [a]
  | b :: l => if nodeCmp a b = Ordering.gt then b :: ordInsNode a l else a :: b :: l

/-- Stable insertion sort by `nodeCmp`.  Rust's `sort_by` is a stable
sort, and a stable sort's output is determined by the comparator
alone, so this produces exactly the list `sort_by` produces. -/
def insSortNodes : List FileNode → List FileNode
  | [] => []
  | a :: l => ordInsNode a (insSortNodes l)

mutual
/-- The per-node half of `sort_nodes_recursive`: a directory's child
list is sorted recursively, a file is left unchanged. -/
def sortInto : FileNode → FileNode
  | FileNode.mk p n true tok ch sz lm =>
    FileNode.mk p n true tok (insSortNodes (sortIntoEach ch)) sz lm
  | FileNode.mk p n false tok ch sz lm => FileNode.mk p n false tok ch sz lm

/-- Applies `sortInto` to every node of a sibling list. -/
def sortIntoEach : List FileNode → List FileNode
  | [] => []
  | c :: cs => sortInto c :: sortIntoEach cs
end

/-- Models `sort_nodes_recursive`.  The Rust function sorts the
sibling list first and then recurses into each directory's children;
since the recursion leaves every sort key (`is_dir`, `name`)
unchanged, sorting commutes with the recursion, and recursing first
(which makes the recursion structural) yields the identical list. -/
def sortForest (ns : List FileNode) : List FileNode :=
  insSortNodes (sortIntoEach ns)

/-- Models `process_files`.  `decoded` is the result of deserializing
the input records (`serde_wasm_bindgen::from_value`); `tok` is the
external tiktoken tokenizer, returning the token count of a content
string or failing; `keyOrd` is the order in which the code's
`node_map.keys()` snapshot yields the map's keys — a `HashMap`
iteration order, unspecified by Rust, so it is a parameter here.  The
wall-clock `processing_time_ms` output is omitted. -/
def processFiles (decoded : Except String (List FileInput)) (opts : ProcessingOptions)
    (tok : String → Except String Nat) (keyOrd : List String) :
    Except String ProcessingResult :=
  match decoded with
  | Except.error e => Except.error e
  | Except.ok files =>
    match buildLoop tok opts.show_token_count (files.filter (contentKeep opts.text_only)) [] 0 with
    | Except.error e => Except.error e
    | Except.ok ms =>
      Except.ok
        { file_tree := sortForest (postProcessRoots opts (reparent keyOrd ms.1 []).2).1
          total_tokens := (postProcessRoots opts (reparent keyOrd ms.1 []).2).2
          total_files := (files.filter (contentKeep opts.text_only)).length
          total_size := ms.2 }

/-! ### Concrete end-to-end checks -/

/-- The three-file batch of the spec's end-to-end test. -/
def c2files : List FileInput :=
  [{ path := "src/a.js", content := "x" },
   { path := "src/b.js", content := "yy" },
   { path := "README", content := "hi" }]

/-- A tokenizer with the token counts the end-to-end test assigns to
the three contents. -/
def c2tok (s : String) : Except String Nat :=
  Except.ok (if s = "x" then 1 else if s = "yy" then 1 else if s = "hi" then 1 else 0)

/-- A key order of the node map that handles every child before its
parent (longest-to-shortest, as the spec prescribes). -/
def c2goodOrder : List String := ["src/a.js", "src/b.js", "README", "src"]

/-- A key order of the node map that handles the directory `src`
before its children — equally permitted for a `HashMap` snapshot. -/
def c2badOrder : List String := ["src", "src/a.js", "src/b.js", "README"]

/-- The result the spec's end-to-end test expects. -/
def c2expected : ProcessingResult :=
  { file_tree :=
      [FileNode.mk ("src") ("src") true (some 2)
        [FileNode.mk ("src/a.js") ("a.js") false (some 1) [] (some 1) none,
         FileNode.mk ("src/b.js") ("b.js") false (some 1) [] (some 2) none]
        (some 3) none,
       FileNode.mk ("README") ("README") false (some 1) [] (some 2) none]
    total_tokens := 3
    total_files := 3
    total_size := 5 }

/-- What the code produces under the child-last key order: the two
files under `src` are silently dropped. -/
def c2divergent : ProcessingResult :=
  { file_tree :=
      [FileNode.mk ("src") ("src") true (some 0) [] (some 0) none,
       FileNode.mk ("README") ("README") false (some 1) [] (some 2) none]
    total_tokens := 1
    total_files := 3
    total_size := 5 }

mutual
/-- `p` holds of this node and, recursively, of every node below
it. -/
def nodeAll (p : FileNode → Bool) : FileNode → Bool
  | FileNode.mk pa n d tok ch sz lm =>
    p (FileNode.mk pa n d tok ch sz lm) && forestAll p ch

/-- `p` holds of every node of the forest, recursively. -/
def forestAll (p : FileNode → Bool) : List FileNode → Bool
  | [] => true
  | c :: cs => nodeAll p c && forestAll p cs
end

/-- `true` iff the call succeeded. -/
def exceptOk {α : Type} : Except String α → Bool
  | Except.ok _ => true
  | Except.error _ => false

/-- Node-creation invariant of `process_files` when token counting is
disabled: every file (non-directory) node carries no token count. -/
def fileTokNone (n : FileNode) : Bool :=
  n.is_dir || (n.token_count == none)

/-- A minimal node map as built by `process_files` for the single
input file `src/a.js`: the leaf and its synthesized ancestor. -/
def c1map : List (String × FileNode) :=
  [("src/a.js", FileNode.mk ("src/a.js") ("a.js") false none [] (some 1) none),
   ("src", dirNode ("src"))]

/-- Options with token counting disabled. -/
def tokensOffOptions : ProcessingOptions :=
  { text_only := true, hide_empty_folders := true, show_token_count := false }

/-- The result `process_files` produces for the end-to-end batch with
token counting disabled and a child-first key order: both directory
nodes carry `token_count = some 0`, files carry `none`. -/
def c7result : ProcessingResult :=
  { file_tree :=
      [FileNode.mk ("src") ("src") true (some 0)
        [FileNode.mk ("src/a.js") ("a.js") false none [] (some 1) none,
         FileNode.mk ("src/b.js") ("b.js") false none [] (some 2) none]
        (some 3) none,
       FileNode.mk ("README") ("README") false none [] (some 2) none]
    total_tokens := 0
    total_files := 3
    total_size := 5 }

/-! ## Induction principle for the nested tree type -/

@[simp] theorem exceptOk_ok {α : Type} (a : α) : exceptOk (Except.ok a : Except String α) = true := rfl

@[simp] theorem exceptOk_error {α : Type} (e : String) :
    exceptOk (Except.error e : Except String α) = false := rfl

mutual
/-- Induction over a `FileNode` with a joint motive for child
lists. -/
theorem nodeInd (motive : FileNode → Prop) (motiveL : List FileNode → Prop)
    (h1 : ∀ p n d tok ch sz lm, motiveL ch → motive (FileNode.mk p n d tok ch sz lm))
    (h2 : motiveL [])
    (h3 : ∀ c cs, motive c → motiveL cs → motiveL (c :: cs)) :
    ∀ t, motive t
  | FileNode.mk p n d tok ch sz lm => h1 p n d tok ch sz lm (forestInd motive motiveL h1 h2 h3 ch)

/-- Induction over a `FileNode` forest with a joint motive for
nodes. -/
theorem forestInd (motive : FileNode → Prop) (motiveL : List FileNode → Prop)
    (h1 : ∀ p n d tok ch sz lm, motiveL ch → motive (FileNode.mk p n d tok ch sz lm))
    (h2 : motiveL [])
    (h3 : ∀ c cs, motive c → motiveL cs → motiveL (c :: cs)) :
    ∀ l, motiveL l
  | [] => h2
  | c :: cs =>
    h3 c cs (nodeInd motive motiveL h1 h2 h3 c) (forestInd motive motiveL h1 h2 h3 cs)
end

/-! ## Aggregation lemmas -/

/-- A node that aggregation leaves as a childless directory
contributes no tokens and size zero: its stored totals are the sums
over an empty surviving set. -/
theorem ppNodeZero (opts : ProcessingOptions) :
    ∀ t, (postProcessNode opts t).1.is_dir = true →
      (postProcessNode opts t).1.children = [] →
      (postProcessNode opts t).2 = 0 ∧ (postProcessNode opts t).1.size = some 0 := by
  refine nodeInd _
    (fun l => (postProcessChildren opts l).1 = [] →
      (postProcessChildren opts l).2.1 = 0 ∧ (postProcessChildren opts l).2.2 = 0)
    ?_ ?_ ?_
  · intro p n d tok ch sz lm ih
    cases d with
    | false => intro hd; simp [postProcessNode, FileNode.is_dir] at hd
    | true =>
      intro _ hch
      simp only [postProcessNode, FileNode.children] at hch
      simp only [postProcessNode, FileNode.size]
      exact ⟨(ih hch).1, by rw [(ih hch).2]⟩
  · intro _
    exact ⟨rfl, rfl⟩
  · intro c cs hc hcs
    intro hkept
    simp only [postProcessChildren] at hkept ⊢
    split at hkept
    · exact absurd hkept (List.cons_ne_nil _ _)
    · next hK =>
      have hrest := hcs hkept
      simp only [Bool.not_eq_true, Bool.or_eq_false_iff, Bool.not_eq_false',
        Bool.not_eq_true'] at hK
      have hz := hc hK.1.2 (List.isEmpty_iff.mp hK.2)
      refine ⟨?_, ?_⟩
      · rw [hz.1, hrest.1]
      · rw [hz.2, hrest.2]
        rfl

/-- The child-list half of `ppNodeZero`. -/
theorem ppChildrenZero (opts : ProcessingOptions) :
    ∀ l, (postProcessChildren opts l).1 = [] →
      (postProcessChildren opts l).2.1 = 0 ∧ (postProcessChildren opts l).2.2 = 0 := by
  intro l hkept
  induction l with
  | nil => exact ⟨rfl, rfl⟩
  | cons c cs ih =>
    simp only [postProcessChildren] at hkept ⊢
    split at hkept
    · exact absurd hkept (List.cons_ne_nil _ _)
    · next hK =>
      have hrest := ih hkept
      simp only [Bool.not_eq_true, Bool.or_eq_false_iff, Bool.not_eq_false',
        Bool.not_eq_true'] at hK
      have hz := ppNodeZero opts c hK.1.2 (List.isEmpty_iff.mp hK.2)
      refine ⟨?_, ?_⟩
      · rw [hz.1, hrest.1]
      · rw [hz.2, hrest.2]
        rfl

/-- Aggregating a node a second time changes nothing: the node and
the returned token total are reproduced exactly. -/
theorem ppNodeIdem (opts : ProcessingOptions) :
    ∀ t, postProcessNode opts (postProcessNode opts t).1 = postProcessNode opts t := by
  refine nodeInd _
    (fun l => postProcessChildren opts (postProcessChildren opts l).1
      = postProcessChildren opts l)
    ?_ ?_ ?_
  · intro p n d tok ch sz lm ih
    cases d with
    | false => simp [postProcessNode]
    | true =>
      simp only [postProcessNode]
      rw [ih]
  · rfl
  · intro c cs hc hcs
    simp only [postProcessChildren]
    split
    · next hK =>
      simp only [postProcessChildren, hc, hcs]
      rw [if_pos hK]
    · next hK =>
      rw [hcs]
      have hKf : (!opts.hide_empty_folders || !(postProcessNode opts c).1.is_dir
          || !(postProcessNode opts c).1.children.isEmpty) = false :=
        Bool.eq_false_iff.mpr hK
      simp only [Bool.or_eq_false_iff, Bool.not_eq_false', Bool.not_eq_true'] at hKf
      have hz := ppNodeZero opts c hKf.1.2 (List.isEmpty_iff.mp hKf.2)
      rw [hz.1]
      rw [hz.2]
      simp

/-- The child-list half of `ppNodeIdem`. -/
theorem ppChildrenIdem (opts : ProcessingOptions) :
    ∀ l, postProcessChildren opts (postProcessChildren opts l).1
      = postProcessChildren opts l := by
  intro l
  induction l with
  | nil => rfl
  | cons c cs ih =>
    simp only [postProcessChildren]
    split
    · next hK =>
      simp only [postProcessChildren, ppNodeIdem opts c, ih]
      rw [if_pos hK]
    · next hK =>
      rw [ih]
      have hKf : (!opts.hide_empty_folders || !(postProcessNode opts c).1.is_dir
          || !(postProcessNode opts c).1.children.isEmpty) = false :=
        Bool.eq_false_iff.mpr hK
      simp only [Bool.or_eq_false_iff, Bool.not_eq_false', Bool.not_eq_true'] at hKf
      have hz := ppNodeZero opts c hKf.1.2 (List.isEmpty_iff.mp hKf.2)
      rw [hz.1]
      rw [hz.2]
      simp

/-! ## Claim theorems -/

/-- C1: the tree-assembly loop iterates the node map's keys in the
map's own (unspecified hash) order, not longest-to-shortest.  Under a
child-first order every node of the map `{src/a.js ↦ leaf, src ↦
dir}` ends up in the forest exactly once, but under the equally
permitted parent-first order the leaf `src/a.js` is removed from the
map after its parent is gone and vanishes: the resulting forest
contains no node with its path.  The claim's "every created node
appears exactly once in the resulting forest, regardless of input
order" therefore fails on the code. -/
theorem reparent_key_order_dependence :
    (reparent ["src/a.js", "src"] c1map []).2
      = [FileNode.mk ("src") ("src") true none
          [FileNode.mk ("src/a.js") ("a.js") false none [] (some 1) none] none none] ∧
    (reparent ["src", "src/a.js"] c1map []).2 = [dirNode ("src")] ∧
    forestAll (fun n => n.path != "src/a.js") (reparent ["src", "src/a.js"] c1map []).2
      = true ∧
    forestAll (fun n => n.path != "src/a.js") (reparent ["src/a.js", "src"] c1map []).2
      = false ∧
    (reparent ["src", "src/a.js"] c1map []).1 = [] :=
  ⟨rfl, rfl, rfl, rfl, rfl⟩

/-- C2: the spec's end-to-end expectation (roots `src` before
`README`, `src` with children `a.js`, `b.js`, sizes 3/2, tokens 2/1,
totals 3 files, 3 tokens, 5 bytes) is exactly what the code produces
when the node-map key snapshot happens to list every child before its
parent — but under the parent-first snapshot order, which a `HashMap`
is equally free to produce, both files under `src` are dropped and
the result differs (`src` childless, `total_tokens = 1`). -/
theorem process_files_end_to_end_key_order :
    processFiles (Except.ok c2files) defaultProcessingOptions c2tok c2goodOrder
      = Except.ok c2expected ∧
    processFiles (Except.ok c2files) defaultProcessingOptions c2tok c2badOrder
      = Except.ok c2divergent ∧
    c2expected.total_tokens = 3 ∧
    c2divergent.total_tokens = 1 ∧
    (c2divergent.file_tree.map FileNode.children).flatten = [] :=
  ⟨rfl, rfl, rfl, rfl, rfl⟩

/-- C3 counterexample: with the gitignore text `*.log` then
`!important.log`, `filter_files` keeps neither file — in particular
`important.log` is **not** retained, contrary to the claim — because
the processor appends its own `*.log` after the caller's lines and
the last matching pattern decides. -/
theorem negation_precedence_counterexample :
    filterFiles ("*.log\n!important.log") ("") defaultFilterOptions
      [{ path := "important.log", size := 5 }, { path := "debug.log", size := 5 }]
      = [] :=
  rfl

/-- C3 amended: among the caller-supplied patterns alone the later
negation does override the earlier `*.log` (`important.log` not
ignored, `debug.log` ignored); but `filter_files` appends a hardcoded
`*.log` after the caller's lines, so the full matcher drops both
files. -/
theorem negation_precedence_amended :
    gitMatchIgnore (compileUserLines ("*.log\n!important.log"))
      (pathComps ("important.log")) false = false ∧
    gitMatchIgnore (compileUserLines ("*.log\n!important.log"))
      (pathComps ("debug.log")) false = true ∧
    shouldIgnore (buildGlobs ("*.log\n!important.log")) ("important.log") = true ∧
    filterFiles ("*.log\n!important.log") ("") defaultFilterOptions
      [{ path := "important.log", size := 5 }, { path := "debug.log", size := 5 }]
      = [] :=
  ⟨rfl, rfl, rfl, rfl⟩

/-- C4: `should_ignore` evaluates only the flat file path with
`is_dir = false` (`Gitignore::matched`, not
`matched_path_or_any_parents`), so the directory-only pattern
`build/` — compiled to the directory-restricted glob `**/build` —
matches neither `build/a.txt` nor `buildx/a.txt`, and `filter_files`
keeps **both**; the claim (and spec) says `build/a.txt` must be
dropped. -/
theorem dir_pattern_keeps_contained_file :
    shouldIgnore (buildGlobs ("build/")) ("build/a.txt") = false ∧
    filterFiles ("build/") ("") defaultFilterOptions
      [{ path := "build/a.txt", size := 10 }, { path := "buildx/a.txt", size := 10 }]
      = ["build/a.txt", "buildx/a.txt"] :=
  ⟨rfl, rfl⟩

/-- C5 counterexample: `xyz` is in neither extension list, yet
`is_likely_text` returns `false` for `notes.xyz` — unknown extensions
do not default to text; they fall through to the file-name check,
which accepts only special names and dotfiles. -/
theorem unknown_extension_counterexample :
    rustExtensionOfPath ("notes.xyz") = some ("xyz") ∧
    textExtensions.contains ("xyz") = false ∧
    binaryExtensions.contains ("xyz") = false ∧
    isLikelyText ("notes.xyz") = false :=
  ⟨rfl, rfl, rfl, rfl⟩

/-- C7 counterexample: with `show_token_count` disabled the produced
tree still carries token counts — every directory node gets
`token_count = some 0` (the aggregation writes the sum
unconditionally) — so "no node carries a tokenCount value" is false;
here the root `src` carries `some 0` while the file nodes carry
`none`. -/
theorem token_count_present_when_disabled :
    processFiles (Except.ok c2files) tokensOffOptions c2tok c2goodOrder
      = Except.ok c7result ∧
    forestAll (fun n => n.token_count == none) c7result.file_tree = false ∧
    c7result.file_tree.map FileNode.token_count = [some 0, none] :=
  ⟨rfl, rfl, rfl⟩

/-- C10 counterexample: the five appended directory patterns are
inert for file paths — with empty caller text, `node_modules/x.js`
matches the gitignore meaning of `node_modules/` yet is **kept**,
because matching passes `is_dir = false` on the flat path only. -/
theorem hardcoded_dir_patterns_counterexample :
    shouldIgnore (buildGlobs ("")) ("node_modules/x.js") = false ∧
    filterFiles ("") ("") defaultFilterOptions
      [{ path := "node_modules/x.js", size := 5 }]
      = ["node_modules/x.js"] :=
  ⟨rfl, rfl⟩

/-- C10 amended: `filter_files` does append the six hardcoded
patterns after the caller's lines, and the appended `*.log` is
effective — it drops `debug.log` with empty caller text and
overrides an earlier caller negation `!important.log` — but the five
directory-only patterns never drop any file path, since matching
tests only the flat path with `is_dir = false`. -/
theorem hardcoded_patterns_amended :
    (∀ content, buildGlobs content
      = compileUserLines content ++ hardcodedLines.filterMap compileLine) ∧
    filterFiles ("") ("") defaultFilterOptions [{ path := "debug.log", size := 5 }] = [] ∧
    filterFiles ("!important.log") ("") defaultFilterOptions
      [{ path := "important.log", size := 5 }] = [] ∧
    filterFiles ("") ("") defaultFilterOptions
      [{ path := "node_modules/x.js", size := 5 }]
      = ["node_modules/x.js"] :=
  ⟨fun _ => rfl, rfl, rfl, rfl⟩

/-- C6: every entry `filter_files` retains has byte size at most
`max_file_size` (default 2 MiB): an entry whose size exceeds the cap
is dropped no matter what the other options and patterns say, since
the per-entry predicate rejects it outright at the size check (or
already at the gitignore check). -/
theorem filter_size_cap (gi rp : String) (opts : FilterOptions)
    (metas : List FileMetadata) (m : FileMetadata)
    (h : m ∈ filteredMetas gi rp opts metas) :
    m.size ≤ opts.max_file_size.getD (2 * 1024 * 1024) := by
  have hp := (List.mem_filter.mp h).2
  unfold filterPred at hp
  split at hp
  · simp at hp
  · split at hp
    · simp at hp
    · omega

/-- C6 witness: a small retained file, and the 2 MiB default cap it
is below. -/
theorem filter_size_cap_witness :
    ({ path := "a.js", size := 7 } : FileMetadata).size ≤
      defaultFilterOptions.max_file_size.getD (2 * 1024 * 1024) :=
  filter_size_cap ("") ("") defaultFilterOptions [{ path := "a.js", size := 7 }]
    { path := "a.js", size := 7 } (by decide)

/-- C8: the aggregation fold is idempotent — rerunning
`post_process_node` (or the whole per-root fold) on an
already-aggregated tree with the same options prunes nothing
further, reproduces every node's `size` and `token_count` exactly,
and returns the identical total. -/
theorem post_process_idempotent :
    (∀ opts t, postProcessNode opts (postProcessNode opts t).1 = postProcessNode opts t) ∧
    (∀ opts roots,
      postProcessRoots opts (postProcessRoots opts roots).1 = postProcessRoots opts roots) := by
  constructor
  · exact fun opts t => ppNodeIdem opts t
  · intro opts roots
    induction roots with
    | nil => rfl
    | cons r rs ih => simp only [postProcessRoots, ppNodeIdem opts r, ih]

/-- The per-file loop succeeds exactly when, for every file it
processes, either token counting is off or the tokenizer succeeds on
the file's content. -/
theorem buildLoopOk (tok : String → Except String Nat) :
    ∀ (showTok : Bool) (fs : List FileInput) (m : List (String × FileNode)) (sz : Nat),
      exceptOk (buildLoop tok showTok fs m sz)
        = fs.all fun f => !showTok || exceptOk (tok f.content) := by
  intro showTok
  cases showTok with
  | false =>
    intro fs
    induction fs with
    | nil => intro m sz; rfl
    | cons f fs ih =>
      intro m sz
      simp only [buildLoop, Bool.false_eq_true, if_false, ih, List.all_cons, Bool.not_false,
        Bool.true_or, Bool.true_and]
  | true =>
    intro fs
    induction fs with
    | nil => intro m sz; rfl
    | cons f fs ih =>
      intro m sz
      cases htok : tok f.content with
      | error e =>
        simp only [buildLoop, if_true, htok, Except.map, List.all_cons, exceptOk_error,
          Bool.not_true, Bool.false_or, Bool.false_and]
      | ok n =>
        simp only [buildLoop, if_true, htok, Except.map, ih, List.all_cons, exceptOk_ok,
          Bool.not_true, Bool.false_or, Bool.true_and]

/-- C9: `process_files` is all-or-nothing.  A decode failure is
returned as-is, with no tree or totals; otherwise the call succeeds
exactly when the tokenizer succeeds on every retained (content-
filtered) file — or is never invoked because token counting is off —
and a single tokenizer failure fails the whole call. -/
theorem process_files_all_or_nothing :
    (∀ opts tok keyOrd e,
      processFiles (Except.error e) opts tok keyOrd = Except.error e) ∧
    (∀ opts tok keyOrd files,
      exceptOk (processFiles (Except.ok files) opts tok keyOrd)
        = (files.filter (contentKeep opts.text_only)).all
            fun f => !opts.show_token_count || exceptOk (tok f.content)) := by
  constructor
  · intro opts tok keyOrd e
    rfl
  · intro opts tok keyOrd files
    have hbl := buildLoopOk tok opts.show_token_count
      (files.filter (contentKeep opts.text_only)) [] 0
    cases hb : buildLoop tok opts.show_token_count
        (files.filter (contentKeep opts.text_only)) [] 0 with
    | error e =>
      rw [hb] at hbl
      simp only [processFiles, hb]
      exact hbl
    | ok ms =>
      rw [hb] at hbl
      simp only [processFiles, hb]
      exact hbl

/-- C5 amended: a path with an extension in neither list does not
default to text — it falls through to the file-name check, whose
result is: special names are text, otherwise exactly the dotfiles not
ending in `.lock` (first conjunct, stated for non-special names); and
every extensionless `LICENSE`/`README`/`Makefile`/`Dockerfile`, in
any letter case, is classified text (second conjunct). -/
theorem text_heuristic_amended :
    (∀ p e, rustExtensionOfPath p = some e →
      lowerStr e ∉ textExtensions →
      lowerStr e ∉ binaryExtensions →
      (∀ f, rustFileName p = some f → lowerStr f ∉ specialTextNames) →
      isLikelyText p
        = ((rustFileName p).map fun f =>
            ['.'].isPrefixOf (lowerStr f).toList &&
              !((".lock").toList.isSuffixOf (lowerStr f).toList)).getD false) ∧
    (∀ p f, rustExtensionOfPath p = none → rustFileName p = some f →
      (lowerStr f = "license" ∨ lowerStr f = "readme" ∨ lowerStr f = "makefile" ∨
        lowerStr f = "dockerfile") →
      isLikelyText p = true) := by
  constructor
  · intro p e he htext hbin hspec
    cases hf : rustFileName p with
    | none =>
      rw [rustExtensionOfPath, hf] at he
      exact absurd he (by simp)
    | some f =>
      have hs := hspec f hf
      simp [isLikelyText, likelyTextByName, he, hf, hbin, htext, hs]
  · intro p f hext hf hdisj
    have hmem : lowerStr f ∈ specialTextNames := by
      rcases hdisj with h | h | h | h <;> rw [h] <;> decide
    simp [isLikelyText, likelyTextByName, hext, hf, hmem]

/-! ## Invariant plumbing for the token-field shape (C7) -/

/-- `forestAll` distributes over append. -/
theorem forestAll_append (p : FileNode → Bool) :
    ∀ l1 l2 : List FileNode, forestAll p (l1 ++ l2) = (forestAll p l1 && forestAll p l2) := by
  intro l1 l2
  induction l1 with
  | nil => simp [forestAll]
  | cons c cs ih => simp [forestAll, ih, Bool.and_assoc]

/-- `insertReplace` preserves a deep node invariant. -/
theorem insertReplace_inv (p : FileNode → Bool) (m : List (String × FileNode)) (k : String)
    (v : FileNode) (hm : ∀ kv ∈ m, nodeAll p kv.2 = true) (hv : nodeAll p v = true) :
    ∀ kv ∈ insertReplace m k v, nodeAll p kv.2 = true := by
  intro kv hkv
  unfold insertReplace at hkv
  split at hkv
  · rcases List.mem_map.mp hkv with ⟨kv0, h0, heq⟩
    by_cases hk : (kv0.1 == k) = true
    · rw [← heq, if_pos hk]
      exact hv
    · rw [← heq, if_neg hk]
      exact hm kv0 h0
  · rcases List.mem_append.mp hkv with h | h
    · exact hm kv h
    · rw [List.mem_singleton.mp h]
      exact hv

/-- `entryOrInsert` preserves a deep node invariant. -/
theorem entryOrInsert_inv (p : FileNode → Bool) (m : List (String × FileNode)) (k : String)
    (v : FileNode) (hm : ∀ kv ∈ m, nodeAll p kv.2 = true) (hv : nodeAll p v = true) :
    ∀ kv ∈ entryOrInsert m k v, nodeAll p kv.2 = true := by
  intro kv hkv
  unfold entryOrInsert at hkv
  split at hkv
  · exact hm kv hkv
  · rcases List.mem_append.mp hkv with h | h
    · exact hm kv h
    · rw [List.mem_singleton.mp h]
      exact hv

/-- The ancestor-insertion walk preserves a deep node invariant that
holds of every synthesized directory node. -/
theorem insertAncestorsAux_inv (p : FileNode → Bool)
    (hdir : ∀ s, nodeAll p (dirNode s) = true) :
    ∀ (fuel : List (List Char)) (m : List (String × FileNode)) (comps : List (List Char)),
      (∀ kv ∈ m, nodeAll p kv.2 = true) →
      ∀ kv ∈ insertAncestorsAux fuel m comps, nodeAll p kv.2 = true := by
  intro fuel
  induction fuel with
  | nil => intro m comps hm; exact hm
  | cons hd fuel ih =>
    intro m comps hm
    simp only [insertAncestorsAux]
    split
    · exact hm
    · split
      · exact hm
      · exact ih _ _ (entryOrInsert_inv p m _ _ hm (hdir _))

/-- `removeKey` preserves the invariant on the remaining map, and the
removed node (if any) satisfies it. -/
theorem removeKey_inv (p : FileNode → Bool) :
    ∀ (m : List (String × FileNode)) (k : String),
      (∀ kv ∈ m, nodeAll p kv.2 = true) →
      (∀ kv ∈ (removeKey m k).2, nodeAll p kv.2 = true) ∧
        (∀ v, (removeKey m k).1 = some v → nodeAll p v = true) := by
  intro m k
  induction m with
  | nil =>
    intro _
    exact ⟨fun kv h => absurd h (List.not_mem_nil kv), fun v h => Option.noConfusion h⟩
  | cons kv0 rest ih =>
    intro hm
    have hrest : ∀ kv ∈ rest, nodeAll p kv.2 = true :=
      fun kv h => hm kv (List.mem_cons_of_mem kv0 h)
    have ihr := ih hrest
    simp only [removeKey]
    split
    · exact ⟨hrest, fun v hv => by
        rw [← Option.some.injEq kv0.2 v |>.mp hv]
        exact hm kv0 (List.mem_cons_self kv0 rest)⟩
    · refine ⟨?_, ihr.2⟩
      intro kv hkv
      rcases List.mem_cons.mp hkv with h | h
      · rw [h]; exact hm kv0 (List.mem_cons_self kv0 rest)
      · exact ihr.1 kv h

/-- Appending a child preserves the `fileTokNone` invariant (whose
per-node value never depends on the child list). -/
theorem appendChild_fileTokNone (nd c : FileNode)
    (hn : nodeAll fileTokNone nd = true) (hc : nodeAll fileTokNone c = true) :
    nodeAll fileTokNone (appendChild nd c) = true := by
  cases nd with
  | mk pa n d tok ch sz lm =>
    simp only [appendChild, nodeAll, forestAll_append, fileTokNone, Bool.and_eq_true,
      forestAll, Bool.and_true] at hn ⊢
    exact ⟨hn.1, hn.2, hc⟩

/-- `pushChild` preserves the `fileTokNone` invariant when the pushed
child satisfies it. -/
theorem pushChild_inv (m : List (String × FileNode)) (k : String) (c : FileNode)
    (hm : ∀ kv ∈ m, nodeAll fileTokNone kv.2 = true)
    (hc : nodeAll fileTokNone c = true) :
    ∀ kv ∈ pushChild m k c, nodeAll fileTokNone kv.2 = true := by
  intro kv hkv
  unfold pushChild at hkv
  rcases List.mem_map.mp hkv with ⟨kv0, h0, heq⟩
  by_cases hk : (kv0.1 == k) = true
  · rw [← heq, if_pos hk]
    exact appendChild_fileTokNone kv0.2 c (hm kv0 h0) hc
  · rw [← heq, if_neg hk]
    exact hm kv0 h0

/-- Reparenting preserves the `fileTokNone` invariant: every node of
the produced forest (and of the leftover map) satisfies it whenever
every node of the starting map and root list does. -/
theorem reparent_inv :
    ∀ (ord : List String) (m : List (String × FileNode)) (roots : List FileNode),
      (∀ kv ∈ m, nodeAll fileTokNone kv.2 = true) →
      forestAll fileTokNone roots = true →
      forestAll fileTokNone (reparent ord m roots).2 = true := by
  intro ord
  induction ord with
  | nil => intro m roots _ hr; exact hr
  | cons pk rest ih =>
    intro m roots hm hr
    have hrem := removeKey_inv fileTokNone m pk hm
    cases hpar : rustParent pk with
    | none =>
      simp only [reparent, hpar]
      exact ih m roots hm hr
    | some ps =>
      rcases hR : removeKey m pk with ⟨v, m2⟩
      rw [hR] at hrem
      cases v with
      | none =>
        simp only [reparent, hpar, hR]
        by_cases hcond : ps = "" ∨ ps = "."
        · rw [if_pos hcond]
          exact ih m2 roots hrem.1 hr
        · rw [if_neg hcond]
          exact ih m2 roots hrem.1 hr
      | some nd =>
        simp only [reparent, hpar, hR]
        by_cases hcond : ps = "" ∨ ps = "."
        · rw [if_pos hcond]
          refine ih m2 (roots ++ [nd]) hrem.1 ?_
          rw [forestAll_append, hr]
          simp [forestAll, hrem.2 nd rfl]
        · rw [if_neg hcond]
          exact ih (pushChild m2 ps nd) roots
            (pushChild_inv m2 ps nd hrem.1 (hrem.2 nd rfl)) hr

/-- The per-file loop of `process_files` with token counting off
creates only nodes satisfying `fileTokNone`: leaves get `none` and
ancestor directories get `none` too. -/
theorem buildLoop_inv (tok : String → Except String Nat) :
    ∀ (fs : List FileInput) (m : List (String × FileNode)) (sz : Nat)
      (m2 : List (String × FileNode)) (sz2 : Nat),
      buildLoop tok false fs m sz = Except.ok (m2, sz2) →
      (∀ kv ∈ m, nodeAll fileTokNone kv.2 = true) →
      ∀ kv ∈ m2, nodeAll fileTokNone kv.2 = true := by
  intro fs
  induction fs with
  | nil =>
    intro m sz m2 sz2 h hm
    have h2 : (m, sz) = (m2, sz2) := Except.ok.inj h
    cases h2
    exact hm
  | cons f fs ih =>
    intro m sz m2 sz2 h hm
    refine ih _ _ _ _ h ?_
    exact insertAncestorsAux_inv fileTokNone (fun s => rfl) _ _ _
      (insertReplace_inv fileTokNone m _ _ hm rfl)

/-- Aggregation preserves `fileTokNone`: files keep their (absent)
token count, directories get `some` sums and stay directories. -/
theorem ppNode_keeps_fileTokNone (opts : ProcessingOptions) :
    ∀ t, nodeAll fileTokNone t = true →
      nodeAll fileTokNone (postProcessNode opts t).1 = true := by
  refine nodeInd _
    (fun l => forestAll fileTokNone l = true →
      forestAll fileTokNone (postProcessChildren opts l).1 = true)
    ?_ ?_ ?_
  · intro p n d tok ch sz lm ih ht
    simp only [nodeAll, Bool.and_eq_true] at ht
    cases d with
    | false =>
      simp only [postProcessNode, nodeAll, Bool.and_eq_true]
      exact ⟨ht.1, ht.2⟩
    | true =>
      simp only [postProcessNode, nodeAll, Bool.and_eq_true]
      exact ⟨rfl, ih ht.2⟩
  · intro _
    rfl
  · intro c cs hc hcs ht
    simp only [forestAll, Bool.and_eq_true] at ht
    simp only [postProcessChildren]
    split
    · simp only [forestAll, Bool.and_eq_true]
      exact ⟨hc ht.1, hcs ht.2⟩
    · exact hcs ht.2

/-- The per-root aggregation fold preserves `fileTokNone`. -/
theorem ppRoots_keeps_fileTokNone (opts : ProcessingOptions) :
    ∀ roots, forestAll fileTokNone roots = true →
      forestAll fileTokNone (postProcessRoots opts roots).1 = true := by
  intro roots
  induction roots with
  | nil => intro _; rfl
  | cons r rs ih =>
    intro ht
    simp only [forestAll, Bool.and_eq_true] at ht
    simp only [postProcessRoots, forestAll, Bool.and_eq_true]
    exact ⟨ppNode_keeps_fileTokNone opts r ht.1, ih ht.2⟩

/-- Stable insertion neither adds nor removes nodes, so a deep
`forestAll` is unchanged. -/
theorem forestAll_ordInsNode (q : FileNode → Bool) (a : FileNode) :
    ∀ l, forestAll q (ordInsNode a l) = (nodeAll q a && forestAll q l) := by
  intro l
  induction l with
  | nil => simp [ordInsNode, forestAll]
  | cons b bs ih =>
    simp only [ordInsNode]
    split
    · simp only [forestAll, ih]
      rw [Bool.and_left_comm]
    · simp [forestAll]

/-- Insertion sort permutes the forest, so a deep `forestAll` is
unchanged. -/
theorem forestAll_insSortNodes (q : FileNode → Bool) :
    ∀ l, forestAll q (insSortNodes l) = forestAll q l := by
  intro l
  induction l with
  | nil => rfl
  | cons a l ih => simp [insSortNodes, forestAll_ordInsNode, ih, forestAll]

/-- Recursive sorting reorders children but touches no node field, so
`fileTokNone` is preserved node by node. -/
theorem sortInto_keeps_fileTokNone :
    ∀ t, nodeAll fileTokNone (sortInto t) = nodeAll fileTokNone t := by
  refine nodeInd _
    (fun l => forestAll fileTokNone (sortIntoEach l) = forestAll fileTokNone l)
    ?_ ?_ ?_
  · intro p n d tok ch sz lm ih
    cases d with
    | false => rfl
    | true =>
      simp only [sortInto, nodeAll, forestAll_insSortNodes, ih, fileTokNone,
        FileNode.is_dir, FileNode.token_count]
  · rfl
  · intro c cs hc hcs
    simp only [sortIntoEach, forestAll, hc, hcs]

/-- The list half of `sortInto_keeps_fileTokNone`. -/
theorem sortIntoEach_keeps_fileTokNone :
    ∀ l, forestAll fileTokNone (sortIntoEach l) = forestAll fileTokNone l := by
  intro l
  induction l with
  | nil => rfl
  | cons c cs ih => simp only [sortIntoEach, forestAll, sortInto_keeps_fileTokNone c, ih]

/-- `sort_nodes_recursive` preserves `fileTokNone` over the whole
forest. -/
theorem sortForest_keeps_fileTokNone (l : List FileNode) :
    forestAll fileTokNone (sortForest l) = forestAll fileTokNone l := by
  rw [sortForest, forestAll_insSortNodes, sortIntoEach_keeps_fileTokNone]

/-- C7 amended: with token counting disabled, no FILE node of any
`process_files` result carries a token count — files are created with
`none` and neither aggregation, pruning nor sorting ever writes one —
while directory nodes are not exempt: the aggregation writes
`token_count = some total` into every directory it visits (see the
counterexample, where the directory carries `some 0`). -/
theorem token_field_shape_amended :
    ∀ (files : List FileInput) (opts : ProcessingOptions) (tok : String → Except String Nat)
      (keyOrd : List String) (r : ProcessingResult),
      opts.show_token_count = false →
      processFiles (Except.ok files) opts tok keyOrd = Except.ok r →
      forestAll fileTokNone r.file_tree = true := by
  intro files opts tok keyOrd r hshow hok
  simp only [processFiles, hshow] at hok
  cases hb : buildLoop tok false (files.filter (contentKeep opts.text_only)) [] 0 with
  | error e =>
    simp only [hb] at hok
    cases hok
  | ok ms =>
    simp only [hb] at hok
    have hr := Except.ok.inj hok
    rw [← hr]
    show forestAll fileTokNone
      (sortForest (postProcessRoots opts (reparent keyOrd ms.1 []).2).1) = true
    have hmap : ∀ kv ∈ ms.1, nodeAll fileTokNone kv.2 = true :=
      buildLoop_inv tok (files.filter (contentKeep opts.text_only)) [] 0 ms.1 ms.2
        (by rw [hb]) (fun kv h => absurd h (List.not_mem_nil kv))
    have hroots := reparent_inv keyOrd ms.1 [] hmap rfl
    rw [sortForest_keeps_fileTokNone]
    exact ppRoots_keeps_fileTokNone opts _ hroots

/-- C7 amended witness: in the concrete run with token counting off,
every file node of the produced tree carries no token count. -/
theorem token_field_shape_amended_witness :
    forestAll fileTokNone c7result.file_tree = true :=
  token_field_shape_amended c2files tokensOffOptions c2tok c2goodOrder c7result rfl rfl

/-- C5 amended witness: `notes.xyz` (unknown extension, not a
dotfile) is classified binary; extensionless `LICENSE` is classified
text. -/
theorem text_heuristic_amended_witness :
    isLikelyText ("notes.xyz") = false ∧ isLikelyText ("LICENSE") = true := by
  constructor
  · have h := text_heuristic_amended.1 ("notes.xyz") ("xyz") (by decide) (by decide)
      (by decide)
      (by
        intro f hf
        rw [show rustFileName ("notes.xyz") = some ("notes.xyz") from rfl] at hf
        cases hf
        decide)
    rw [h]
    decide
  · exact text_heuristic_amended.2 ("LICENSE") ("LICENSE") (by decide) (by decide)
      (Or.inl (by decide))

end Contexter
